import Mathlib

/-
  Verification of the QueueCTL job-queue core (src/queuectl.py).

  Shallow embedding: timestamps are natural numbers (ISO-8601 UTC strings of a
  single format compare lexicographically, i.e. chronologically, which the code
  relies on in its `next_run_at <= now` comparison); the three SQLite tables
  `jobs`, `dlq`, `config` become lists of records; a SQLite transaction
  (`with conn:` in the code) becomes one atomic Lean function on the whole
  store state, and concurrency of worker processes becomes an arbitrary
  serialization order of those atomic transactions.
-/

namespace QueueCTL

/-- The `state` column of the `jobs` table. -/
inductive JState where
  | pending
  | processing
  | completed
  | dead
deriving DecidableEq, Repr

/-- One row of the `jobs` table (see the CREATE TABLE in `init_db`). -/
structure Job where
  id : String
  command : String
  state : JState
  attempts : Nat
  max_retries : Nat
  created_at : Nat
  updated_at : Nat
  next_run_at : Nat
  last_error : Option String
  worker_id : Option String
deriving DecidableEq, Repr

/-- One row of the `dlq` table. -/
structure DLRecord where
  id : String
  command : String
  attempts : Nat
  max_retries : Nat
  failed_at : Nat
  last_error : Option String
deriving DecidableEq, Repr

/-- The durable store: the `jobs`, `dlq` and `config` tables.
(The `workers` table plays no role in the claims considered here.) -/
structure DB where
  jobs : List Job
  dlq : List DLRecord
  config : List (String × Nat)
deriving DecidableEq, Repr

/-- Embedding of get_config(conn, key, default): the value stored under
`key`, or the default when the key is absent. -/
def get_config (cfg : List (String × Nat)) (key : String) (dflt : Nat) : Nat :=
  match cfg.find? (fun p => decide (p.1 = key)) with
  | some p => p.2
  | none => dflt

/-- Embedding of set_config(key, value): upsert into the `config` table. -/
def set_config (cfg : List (String × Nat)) (key : String) (value : Nat) :
    List (String × Nat) :=
  if cfg.any (fun p => decide (p.1 = key)) then
    cfg.map (fun p => if p.1 = key then (key, value) else p)
  else cfg ++ [(key, value)]

/-- Primary-key well-formedness of the `jobs` table: ids are pairwise distinct
(enforced by `id TEXT PRIMARY KEY` in SQLite). -/
abbrev wfJobs (db : DB) : Prop :=
  (db.jobs.map Job.id).Nodup

/-- The WHERE state=pending AND next_run_at<=now condition of the claim query. -/
def isDue (now : Nat) (x : Job) : Bool :=
  decide (x.state = JState.pending ∧ x.next_run_at ≤ now)

/-- The older of two jobs by `created_at` (first argument wins ties: the
deterministic tie-break of `ORDER BY created_at LIMIT 1` on a fixed table). -/
def pickOlder (a b : Job) : Job :=
  if b.created_at < a.created_at then b else a

/-- Embedding of the claim SELECT: among jobs with state=pending and
next_run_at<=now, the one with the least created_at (ORDER BY created_at
LIMIT 1). -/
def selectJob (jobs : List Job) (now : Nat) : Option Job :=
  match jobs.filter (isDue now) with
  | [] => none
  | a :: rest => some (rest.foldl pickOlder a)

/-- The column updates of the claim UPDATE: state=processing, worker_id and
updated_at stamped. -/
def stampClaim (worker : String) (now : Nat) (x : Job) : Job :=
  { x with state := JState.processing, worker_id := some worker, updated_at := now }

/-- Row-wise effect of the conditional UPDATE (WHERE id matches AND state is
still pending) for the selected id `j.id`. -/
def claimMap (j : Job) (worker : String) (now : Nat) (x : Job) : Job :=
  if x.id = j.id ∧ x.state = JState.pending then stampClaim worker now x else x

/-- The claim phase of `try_process_one` (lines 176-194): one SQLite
transaction that selects the oldest due pending job and conditionally flips it
to `processing`. Inside the serialized transaction the row just selected is
still pending, so the conditional update matches exactly the selected row and
the function returns the re-read (updated) row. -/
def claimOne (db : DB) (worker : String) (now : Nat) : Option Job × DB :=
  match selectJob db.jobs now with
  | none => (none, db)
  | some j =>
      (some (stampClaim worker now j),
       { db with jobs := db.jobs.map (claimMap j worker now) })

/-- A serialization of any number of claim invocations (one per listed worker):
the store linearizes concurrent transactions, so every concurrent execution is
some such sequence. -/
def runClaims (db : DB) (ws : List String) (now : Nat) : List (Option Job) × DB :=
  match ws with
  | [] => ([], db)
  | w :: rest =>
      let p := claimOne db w now
      let q := runClaims p.2 rest now
      (p.1 :: q.1, q.2)

/-- Does this claim result carry the job with id `i`? -/
def claimsOf (i : String) (r : Option Job) : Bool :=
  match r with
  | some jr => decide (jr.id = i)
  | none => false

/-- Number of invocations in a result list that claimed job `i`. -/
def claimedCount (rs : List (Option Job)) (i : String) : Nat :=
  rs.countP (claimsOf i)

/-- Success branch of `try_process_one` (lines 199-203): UPDATE the row to
state=completed with updated_at stamped and last_error cleared to NULL. -/
def recordSuccess (db : DB) (j : Job) (now : Nat) : DB :=
  { db with jobs := db.jobs.map (fun x =>
      if x.id = j.id then
        { x with state := JState.completed, updated_at := now, last_error := none }
      else x) }

/-- Embedding of INSERT OR REPLACE INTO dlq, keyed on id. -/
def upsertDLQ (dlq : List DLRecord) (r : DLRecord) : List DLRecord :=
  if dlq.any (fun x => decide (x.id = r.id)) then
    dlq.map (fun x => if x.id = r.id then r else x)
  else dlq ++ [r]

/-- The dlq row inserted when a job exhausts its retries: same id, command,
(final) attempts and max_retries, plus the failure time and text. -/
def deadRecord (j : Job) (output : String) (now : Nat) : DLRecord :=
  { id := j.id, command := j.command, attempts := j.attempts + 1,
    max_retries := j.max_retries, failed_at := now, last_error := some output }

/-- Failure branch of `try_process_one` (lines 204-224): increment attempts,
re-read `backoff_base` from config at this decision, then either reschedule
(pending, exponential backoff) or dead-letter (dlq upsert plus dead state, in
the same transaction). -/
def recordFailure (db : DB) (j : Job) (output : String) (now : Nat) : DB :=
  if j.attempts + 1 < j.max_retries then
    { db with jobs := db.jobs.map (fun x =>
        if x.id = j.id then
          { x with state := JState.pending, attempts := j.attempts + 1,
                   next_run_at :=
                     now + (get_config db.config "backoff_base" 2) ^ (j.attempts + 1),
                   updated_at := now, last_error := some output }
        else x) }
  else
    { db with
      jobs := db.jobs.map (fun x =>
        if x.id = j.id then
          { x with state := JState.dead, attempts := j.attempts + 1,
                   updated_at := now, last_error := some output }
        else x),
      dlq := upsertDLQ db.dlq (deadRecord j output now) }

/-- Outcome of `enqueue_job`: success, the caught `sqlite3.IntegrityError`
(printed, not fatal), or the `SystemExit` raised on a missing id/command. -/
inductive EnqResult where
  | enqueued
  | duplicateJob
  | fatalValidation
deriving DecidableEq, Repr

/-- The parsed JSON submission payload: `id` and `command` required,
`max_retries` and `run_at` optional. -/
structure Payload where
  id : Option String
  command : Option String
  max_retries : Option Nat
  run_at : Option Nat
deriving DecidableEq, Repr

/-- Embedding of enqueue_job (lines 89-126): validate, build the record
(note line 107: `payload.get("max_retries", 3)` — the default is the literal 3,
not a config read), insert; a primary-key conflict rolls back and is reported. -/
def enqueue_job (db : DB) (p : Payload) (now : Nat) : EnqResult × DB :=
  match p.id, p.command with
  | some i, some c =>
      if db.jobs.any (fun x => decide (x.id = i)) then (EnqResult.duplicateJob, db)
      else
        (EnqResult.enqueued,
         { db with jobs := db.jobs ++
            [{ id := i, command := c, state := JState.pending, attempts := 0,
               max_retries := p.max_retries.getD 3, created_at := now,
               updated_at := now, next_run_at := p.run_at.getD now,
               last_error := none, worker_id := none }] })
  | _, _ => (EnqResult.fatalValidation, db)

/-- Embedding of INSERT OR REPLACE INTO jobs, keyed on id. -/
def upsertJob (jobs : List Job) (j : Job) : List Job :=
  if jobs.any (fun x => decide (x.id = j.id)) then
    jobs.map (fun x => if x.id = j.id then j else x)
  else jobs ++ [j]

/-- The fresh pending job row written by a replay: same id and command,
attempts reset to 0, max_retries preserved from the dead record, scheduled
now, no error, no worker. -/
def replayJob (r : DLRecord) (now : Nat) : Job :=
  { id := r.id, command := r.command, state := JState.pending,
    attempts := 0, max_retries := r.max_retries, created_at := now,
    updated_at := now, next_run_at := now, last_error := none,
    worker_id := none }

/-- Embedding of dlq_retry (lines 252-266): unknown id is reported with no
mutation;
otherwise one transaction upserts a fresh pending job row built from the dead
record and deletes the dead record. -/
def dlq_retry (db : DB) (job_id : String) (now : Nat) : Except String DB :=
  match db.dlq.find? (fun r => decide (r.id = job_id)) with
  | none => Except.error "not found"
  | some r =>
      Except.ok
        { db with
          jobs := upsertJob db.jobs (replayJob r now),
          dlq := db.dlq.filter (fun x => decide (x.id ≠ job_id)) }

/-- The store-mutating operations of the system, as one transaction each. -/
inductive Op where
  | enq (p : Payload) (now : Nat)
  | claim (worker : String) (now : Nat)
  | success (j : Job) (now : Nat)
  | failure (j : Job) (output : String) (now : Nat)
  | replay (i : String) (now : Nat)
  | setcfg (key : String) (value : Nat)
deriving DecidableEq, Repr

/-- Apply one operation to the store. -/
def applyOp (db : DB) : Op → DB
  | Op.enq p now => (enqueue_job db p now).2
  | Op.claim w now => (claimOne db w now).2
  | Op.success j now => recordSuccess db j now
  | Op.failure j out now => recordFailure db j out now
  | Op.replay i now =>
      match dlq_retry db i now with
      | Except.ok db2 => db2
      | Except.error _ => db
  | Op.setcfg k v => { db with config := set_config db.config k v }

/-- Contextual validity of an operation, as produced by real executions:
success/failure outcomes are recorded for the very row the worker claimed
(the code re-reads the row inside the claim transaction and passes that
record), so the row is in the table, is `processing`, and — having been
selected when due at an earlier instant — has `next_run_at` at or before the
outcome time. -/
def Op.valid (db : DB) : Op → Prop
  | Op.success j _ => j ∈ db.jobs ∧ j.state = JState.processing
  | Op.failure j _ now =>
      j ∈ db.jobs ∧ j.state = JState.processing ∧ j.next_run_at ≤ now
  | _ => True

/-- Is this operation a dead-letter replay? -/
def Op.isReplay : Op → Bool
  | Op.replay _ _ => true
  | _ => false

/-- The job record built by enqueue_job for id `i`, command `c`, retry limit
`mr`, enqueue time `now0` and schedule `T`. -/
def enqJob (i c : String) (mr now0 T : Nat) : Job :=
  { id := i, command := c, state := JState.pending, attempts := 0,
    max_retries := mr, created_at := now0, updated_at := now0,
    next_run_at := T, last_error := none, worker_id := none }

/-- A job record for concrete instances. -/
def mkJob (i : String) (st : JState) (att mr cr nr : Nat) : Job :=
  { id := i, command := "cmd", state := st, attempts := att, max_retries := mr,
    created_at := cr, updated_at := 0, next_run_at := nr, last_error := none,
    worker_id := none }

/-- Concrete store: a single due pending job. -/
def exDB1 : DB := { jobs := [mkJob "j1" JState.pending 0 3 0 0], dlq := [], config := [] }

/-- Concrete store: one claimed (processing) job, default backoff base. -/
def exDB2 : DB := { jobs := [mkJob "j1" JState.processing 0 3 0 0], dlq := [], config := [] }

/-- Concrete store: a processing job on its last allowed attempt. -/
def exDB3 : DB := { jobs := [mkJob "j1" JState.processing 2 3 0 0], dlq := [], config := [] }

/-- Concrete dead-letter record. -/
def exRec : DLRecord :=
  { id := "j1", command := "cmd", attempts := 3, max_retries := 3,
    failed_at := 7, last_error := some "boom" }

/-- Concrete store: a dead job with its dead-letter record. -/
def exDB4 : DB :=
  { jobs := [mkJob "j1" JState.dead 3 3 0 0], dlq := [exRec], config := [] }

/-- Concrete empty store. -/
def exDBE : DB := { jobs := [], dlq := [], config := [] }

/-- Concrete store holding one future-scheduled pending job (next_run_at 10). -/
def exDB8 : DB :=
  { jobs := [{ id := "jf", command := "cmd", state := JState.pending,
               attempts := 0, max_retries := 3, created_at := 0, updated_at := 0,
               next_run_at := 10, last_error := none, worker_id := none }],
    dlq := [], config := [] }

/-- The row produced by a first failure of the job of exDB2 at time 5 with
backoff base 2: rescheduled 2 seconds later. -/
def exJobC9 : Job :=
  { id := "j1", command := "cmd", state := JState.pending, attempts := 1,
    max_retries := 3, created_at := 0, updated_at := 5, next_run_at := 7,
    last_error := some "err", worker_id := none }

/-- Concrete payload with both required fields and no optional ones. -/
def exPayload : Payload :=
  { id := some "j1", command := some "cmd", max_retries := none, run_at := none }

/-- Concrete payload scheduled in the future (run_at = 10). -/
def exPayloadFuture : Payload :=
  { id := some "jf", command := some "cmd", max_retries := none, run_at := some 10 }

/-- Concrete store and payload for the enqueue-default check: the config
default retry limit has been changed to 5. -/
def exDB7 : DB := { jobs := [], dlq := [], config := [("max_retries", 5)] }

section Helpers

/-- Unfolding of the due predicate. -/
theorem isDue_iff (now : Nat) (x : Job) :
    isDue now x = true ↔ x.state = JState.pending ∧ x.next_run_at ≤ now := by
  simp [isDue]

/-- The fold used by job selection stays among its candidates. -/
theorem foldl_pickOlder_mem (a : Job) (l : List Job) :
    l.foldl pickOlder a ∈ a :: l := by
  induction l generalizing a with
  | nil => simp
  | cons b l ih =>
    have h := ih (pickOlder a b)
    simp only [List.foldl_cons]
    rcases List.mem_cons.mp h with h1 | h1
    · rw [h1]
      unfold pickOlder
      split
      · simp
      · simp
    · simp [List.mem_cons]
      tauto

/-- The fold used by job selection minimizes `created_at`. -/
theorem foldl_pickOlder_le (a : Job) (l : List Job) :
    ∀ x ∈ a :: l, (l.foldl pickOlder a).created_at ≤ x.created_at := by
  induction l generalizing a with
  | nil =>
    intro x hx
    simp at hx
    simp [hx]
  | cons b l ih =>
    intro x hx
    have hle1 : (pickOlder a b).created_at ≤ a.created_at := by
      unfold pickOlder; split <;> omega
    have hle2 : (pickOlder a b).created_at ≤ b.created_at := by
      unfold pickOlder; split <;> omega
    have hself := ih (pickOlder a b) (pickOlder a b) (by simp)
    simp only [List.foldl_cons]
    rcases List.mem_cons.mp hx with rfl | hx2
    · exact le_trans hself hle1
    rcases List.mem_cons.mp hx2 with rfl | hx3
    · exact le_trans hself hle2
    · exact ih (pickOlder a b) x (List.mem_cons_of_mem _ hx3)

/-- A successful selection returns a due pending job of minimal `created_at`. -/
theorem selectJob_some (jobs : List Job) (now : Nat) (j : Job)
    (h : selectJob jobs now = some j) :
    j ∈ jobs ∧ isDue now j = true ∧
      ∀ x ∈ jobs, isDue now x = true → j.created_at ≤ x.created_at := by
  unfold selectJob at h
  cases hf : jobs.filter (isDue now) with
  | nil => rw [hf] at h; cases h
  | cons a rest =>
    rw [hf] at h
    have hj : rest.foldl pickOlder a = j := Option.some.inj h
    have hmem : j ∈ a :: rest := hj ▸ foldl_pickOlder_mem a rest
    have hmemf : j ∈ jobs.filter (isDue now) := by rw [hf]; exact hmem
    have hm := List.mem_filter.mp hmemf
    refine ⟨hm.1, hm.2, ?_⟩
    intro x hx hdx
    have hxf : x ∈ jobs.filter (isDue now) := List.mem_filter.mpr ⟨hx, hdx⟩
    rw [hf] at hxf
    have hle := foldl_pickOlder_le a rest x hxf
    rw [hj] at hle
    exact hle

/-- Selection fails exactly when no job is due. -/
theorem selectJob_none (jobs : List Job) (now : Nat)
    (h : selectJob jobs now = none) :
    ∀ x ∈ jobs, isDue now x = false := by
  unfold selectJob at h
  cases hf : jobs.filter (isDue now) with
  | nil =>
    intro x hx
    by_contra hc
    have hxf : x ∈ jobs.filter (isDue now) :=
      List.mem_filter.mpr ⟨hx, by revert hc; cases isDue now x <;> simp⟩
    rw [hf] at hxf
    cases hxf
  | cons a rest => rw [hf] at h; cases h

/-- If some job is due, selection succeeds. -/
theorem selectJob_of_due (jobs : List Job) (now : Nat) (j : Job)
    (hj : j ∈ jobs) (hdue : isDue now j = true) :
    ∃ j0, selectJob jobs now = some j0 := by
  unfold selectJob
  cases hf : jobs.filter (isDue now) with
  | nil =>
    have hxf : j ∈ jobs.filter (isDue now) := List.mem_filter.mpr ⟨hj, hdue⟩
    rw [hf] at hxf
    cases hxf
  | cons a rest => exact ⟨rest.foldl pickOlder a, rfl⟩

/-- When no due job exists, the claim transaction returns none and leaves the
store untouched. -/
theorem claimOne_none (db : DB) (w : String) (now : Nat) (db2 : DB)
    (h : claimOne db w now = (none, db2)) :
    db2 = db ∧ ∀ x ∈ db.jobs, isDue now x = false := by
  unfold claimOne at h
  cases hs : selectJob db.jobs now with
  | none =>
    rw [hs] at h
    exact ⟨(Prod.mk.injEq _ _ _ _ ▸ h).2.symm, selectJob_none db.jobs now hs⟩
  | some j => rw [hs] at h; cases h

/-- Structure of a successful claim transaction. -/
theorem claimOne_some (db : DB) (w : String) (now : Nat) (r : Job) (db2 : DB)
    (h : claimOne db w now = (some r, db2)) :
    ∃ j, selectJob db.jobs now = some j ∧ r = stampClaim w now j ∧
      db2.jobs = db.jobs.map (claimMap j w now) ∧
      db2.dlq = db.dlq ∧ db2.config = db.config := by
  unfold claimOne at h
  cases hs : selectJob db.jobs now with
  | none => rw [hs] at h; cases h
  | some j =>
    rw [hs] at h
    have h1 := (Prod.mk.injEq _ _ _ _ ▸ h).1
    have h2 := (Prod.mk.injEq _ _ _ _ ▸ h).2
    exact ⟨j, rfl, (Option.some.inj h1).symm, by rw [← h2], by rw [← h2], by rw [← h2]⟩

/-- The conditional claim update preserves row ids. -/
theorem claimMap_id (j : Job) (w : String) (now : Nat) (x : Job) :
    (claimMap j w now x).id = x.id := by
  unfold claimMap stampClaim
  split <;> rfl

/-- The conditional claim update touches only the selected pending row. -/
theorem claimMap_eq_self (j : Job) (w : String) (now : Nat) (x : Job)
    (h : x.id ≠ j.id ∨ x.state ≠ JState.pending) : claimMap j w now x = x := by
  unfold claimMap
  rw [if_neg]
  tauto

/-- Rows with primary key distinct in a well-formed table are equal when their
ids coincide. -/
theorem id_unique {db : DB} (hnd : wfJobs db) {x y : Job}
    (hx : x ∈ db.jobs) (hy : y ∈ db.jobs) (h : x.id = y.id) : x = y :=
  List.inj_on_of_nodup_map hnd hx hy h

/-- Mapping a pointwise-identity function is the identity. -/
theorem map_eq_self_of {α : Type} (l : List α) (f : α → α)
    (h : ∀ x ∈ l, f x = x) : l.map f = l := by
  have h2 : l.map f = l.map id := List.map_congr_left h
  rw [h2, List.map_id]

/-- The claim transaction preserves primary-key well-formedness. -/
theorem wf_claimOne (db : DB) (w : String) (now : Nat) (r : Option Job) (db2 : DB)
    (h : claimOne db w now = (r, db2)) (hnd : wfJobs db) : wfJobs db2 := by
  cases r with
  | none =>
    obtain ⟨rfl, -⟩ := claimOne_none db w now db2 h
    exact hnd
  | some rj =>
    obtain ⟨j, -, -, hjobs, -, -⟩ := claimOne_some db w now rj db2 h
    unfold wfJobs at hnd ⊢
    rw [hjobs, List.map_map]
    have : db.jobs.map (Job.id ∘ claimMap j w now) = db.jobs.map Job.id :=
      List.map_congr_left (fun x _ => claimMap_id j w now x)
    rw [this]
    exact hnd

/-- An `UPDATE ... WHERE id=?` rewrites the row `j` into `g j`. -/
theorem upd_mem_self {g : Job → Job} (jobs : List Job) (j : Job) (hj : j ∈ jobs) :
    g j ∈ jobs.map (fun x => if x.id = j.id then g x else x) := by
  have h : (fun x => if x.id = j.id then g x else x) j = g j := by simp
  exact List.mem_map.mpr ⟨j, hj, h⟩

/-- An `UPDATE ... WHERE id=?` leaves every other row unchanged. -/
theorem upd_mem_other {g : Job → Job} (jobs : List Job) (j x : Job)
    (hx : x ∈ jobs) (hne : x.id ≠ j.id) :
    x ∈ jobs.map (fun y => if y.id = j.id then g y else y) := by
  have h : (fun y => if y.id = j.id then g y else y) x = x := by simp [hne]
  exact List.mem_map.mpr ⟨x, hx, h⟩

/-- After an `UPDATE ... WHERE id=?` on a well-formed table, the row carrying
that id is exactly the rewritten row. -/
theorem upd_eq_of_id {g : Job → Job} (jobs : List Job)
    (hnd : (jobs.map Job.id).Nodup) (j : Job) (hj : j ∈ jobs) (x : Job)
    (hx : x ∈ jobs.map (fun y => if y.id = j.id then g y else y))
    (hxi : x.id = j.id) : x = g j := by
  obtain ⟨y, hy, rfl⟩ := List.mem_map.mp hx
  by_cases hc : y.id = j.id
  · have hyj : y = j := List.inj_on_of_nodup_map hnd hy hj hc
    subst hyj
    rw [if_pos hc]
  · rw [if_neg hc] at hxi
    exact absurd hxi hc

/-- An upserted dlq row is present after the upsert. -/
theorem mem_upsertDLQ (dlq : List DLRecord) (r : DLRecord) :
    r ∈ upsertDLQ dlq r := by
  unfold upsertDLQ
  split
  · next h =>
    simp only [List.any_eq_true, decide_eq_true_eq] at h
    obtain ⟨x, hx, hxe⟩ := h
    have he : (fun y => if y.id = r.id then r else y) x = r := by simp [hxe]
    exact List.mem_map.mpr ⟨x, hx, he⟩
  · exact List.mem_append_right _ (List.mem_singleton.mpr rfl)

/-- An upserted job row is present after the upsert. -/
theorem mem_upsertJob (jobs : List Job) (j : Job) :
    j ∈ upsertJob jobs j := by
  unfold upsertJob
  split
  · next h =>
    simp only [List.any_eq_true, decide_eq_true_eq] at h
    obtain ⟨x, hx, hxe⟩ := h
    have he : (fun y => if y.id = j.id then j else y) x = j := by simp [hxe]
    exact List.mem_map.mpr ⟨x, hx, he⟩
  · exact List.mem_append_right _ (List.mem_singleton.mpr rfl)

/-- A job upsert leaves rows with other ids unchanged. -/
theorem mem_upsertJob_other (jobs : List Job) (j x : Job)
    (hx : x ∈ jobs) (hne : x.id ≠ j.id) : x ∈ upsertJob jobs j := by
  unfold upsertJob
  split
  · have he : (fun y => if y.id = j.id then j else y) x = x := by simp [hne]
    exact List.mem_map.mpr ⟨x, hx, he⟩
  · exact List.mem_append_left _ hx

/-- After a job upsert, every row carrying the upserted id is the new row. -/
theorem upsertJob_eq_of_id (jobs : List Job) (j x : Job)
    (hx : x ∈ upsertJob jobs j) (hxi : x.id = j.id) : x = j := by
  unfold upsertJob at hx
  split at hx
  · obtain ⟨y, hy, rfl⟩ := List.mem_map.mp hx
    by_cases hc : y.id = j.id
    · rw [if_pos hc]
    · rw [if_neg hc] at hxi
      exact absurd hxi hc
  · rcases List.mem_append.mp hx with hy | hy
    · next h =>
      exfalso
      simp only [List.any_eq_true, decide_eq_true_eq] at h
      exact h ⟨x, hy, hxi⟩
    · exact List.mem_singleton.mp hy

/-- A successful claim of a due pending job removes exactly one job from the
due pending set. -/
theorem due_count_claim (db : DB) (w : String) (now : Nat) (j : Job)
    (hnd : wfJobs db) (hj : j ∈ db.jobs) (hdue : isDue now j = true) :
    ((db.jobs.map (claimMap j w now)).filter (isDue now)).length + 1 =
      (db.jobs.filter (isDue now)).length := by
  obtain ⟨l1, l2, hsplit⟩ := List.append_of_mem hj
  have hnd2 : ((l1 ++ j :: l2).map Job.id).Nodup := by
    rw [← hsplit]
    exact hnd
  rw [List.map_append, List.map_cons] at hnd2
  have hdisj := (List.nodup_append.mp hnd2).2.2
  have hcons := (List.nodup_append.mp hnd2).2.1
  have hjl1 : ∀ x ∈ l1, x.id ≠ j.id := by
    intro x hx heq
    exact hdisj (List.mem_map_of_mem Job.id hx)
      (by rw [heq]; exact List.mem_cons_self _ _)
  have hjl2 : ∀ x ∈ l2, x.id ≠ j.id := by
    intro x hx heq
    apply (List.nodup_cons.mp hcons).1
    rw [← heq]
    exact List.mem_map_of_mem Job.id hx
  rw [hsplit, List.map_append, List.map_cons]
  have hmap1 : l1.map (claimMap j w now) = l1 :=
    map_eq_self_of l1 _ (fun x hx => claimMap_eq_self j w now x (Or.inl (hjl1 x hx)))
  have hmap2 : l2.map (claimMap j w now) = l2 :=
    map_eq_self_of l2 _ (fun x hx => claimMap_eq_self j w now x (Or.inl (hjl2 x hx)))
  have hcm : claimMap j w now j = stampClaim w now j := by
    unfold claimMap
    rw [if_pos ⟨rfl, ((isDue_iff now j).mp hdue).1⟩]
  have hns : isDue now (stampClaim w now j) = false := by
    simp [stampClaim, isDue]
  rw [hmap1, hmap2, hcm]
  simp [List.filter_append, List.filter_cons, hns, hdue]
  omega

/-- Counting claims of a job over one more result. -/
theorem claimedCount_cons (r : Option Job) (rs : List (Option Job)) (i : String) :
    claimedCount (r :: rs) i =
      claimedCount rs i + (if claimsOf i r = true then 1 else 0) := by
  simp [claimedCount, List.countP_cons]

/-- A claim transaction never turns a row with id `i` back into `pending`. -/
theorem claim_preserves_nonpending (db : DB) (w : String) (now : Nat)
    (r : Option Job) (db2 : DB) (i : String)
    (h : claimOne db w now = (r, db2))
    (hnp : ∀ x ∈ db.jobs, x.id = i → x.state ≠ JState.pending) :
    ∀ x ∈ db2.jobs, x.id = i → x.state ≠ JState.pending := by
  cases r with
  | none =>
    obtain ⟨rfl, -⟩ := claimOne_none db w now db2 h
    exact hnp
  | some rj =>
    obtain ⟨j, -, -, hjobs, -, -⟩ := claimOne_some db w now rj db2 h
    intro x hx hxi
    rw [hjobs] at hx
    obtain ⟨y, hy, rfl⟩ := List.mem_map.mp hx
    have hyi : y.id = i := by rw [← claimMap_id j w now y]; exact hxi
    by_cases hc : y.id = j.id ∧ y.state = JState.pending
    · unfold claimMap
      rw [if_pos hc]
      simp [stampClaim]
    · rw [claimMap_eq_self j w now y (by tauto)]
      exact hnp y hy hyi

/-- Once no pending row carries id `i`, no later claim in a claim-only
sequence returns id `i`. -/
theorem claimedCount_zero (ws : List String) (db : DB) (now : Nat) (i : String)
    (hnp : ∀ x ∈ db.jobs, x.id = i → x.state ≠ JState.pending) :
    claimedCount (runClaims db ws now).1 i = 0 := by
  induction ws generalizing db with
  | nil => simp [runClaims, claimedCount]
  | cons w rest ih =>
    simp only [runClaims]
    cases hr : (claimOne db w now).1 with
    | none =>
      have hco : claimOne db w now = (none, (claimOne db w now).2) := by rw [← hr]
      rw [claimedCount_cons]
      have h0 : claimsOf i none = false := rfl
      rw [h0]
      simp only [Bool.false_eq_true, if_false, Nat.add_zero]
      exact ih _ (claim_preserves_nonpending db w now none _ i hco hnp)
    | some rj =>
      have hco : claimOne db w now = (some rj, (claimOne db w now).2) := by rw [← hr]
      obtain ⟨j, hs, hrj, -, -, -⟩ := claimOne_some _ _ _ _ _ hco
      obtain ⟨hjm, hjd, -⟩ := selectJob_some _ _ _ hs
      have hjne : j.id ≠ i :=
        fun he => (hnp j hjm he) ((isDue_iff _ _).mp hjd).1
      have hcf : claimsOf i (some rj) = false := by
        simp [claimsOf, hrj, stampClaim]
        exact hjne
      rw [claimedCount_cons, hcf]
      simp only [Bool.false_eq_true, if_false, Nat.add_zero]
      exact ih _ (claim_preserves_nonpending db w now (some rj) _ i hco hnp)

/-- Core exclusivity: over any serialization of claim invocations, a job id
is claimed at most once. -/
theorem claimedCount_le_one (ws : List String) (db : DB) (now : Nat) (i : String)
    (hnd : wfJobs db) :
    claimedCount (runClaims db ws now).1 i ≤ 1 := by
  induction ws generalizing db with
  | nil => simp [runClaims, claimedCount]
  | cons w rest ih =>
    simp only [runClaims]
    cases hr : (claimOne db w now).1 with
    | none =>
      have hco : claimOne db w now = (none, (claimOne db w now).2) := by rw [← hr]
      rw [claimedCount_cons]
      have h0 : claimsOf i none = false := rfl
      rw [h0]
      simp only [Bool.false_eq_true, if_false, Nat.add_zero]
      exact ih _ (wf_claimOne _ _ _ _ _ hco hnd)
    | some rj =>
      have hco : claimOne db w now = (some rj, (claimOne db w now).2) := by rw [← hr]
      by_cases hci : claimsOf i (some rj) = true
      · obtain ⟨j, hs, hrj, hjobs, -, -⟩ := claimOne_some _ _ _ _ _ hco
        obtain ⟨hjm, hjd, -⟩ := selectJob_some _ _ _ hs
        have hji : j.id = i := by
          simp [claimsOf, hrj, stampClaim] at hci
          exact hci
        have hnp : ∀ x ∈ (claimOne db w now).2.jobs,
            x.id = i → x.state ≠ JState.pending := by
          intro x hx hxi
          rw [hjobs] at hx
          obtain ⟨y, hy, rfl⟩ := List.mem_map.mp hx
          have hyi : y.id = i := by rw [← claimMap_id j w now y]; exact hxi
          have hyj : y = j := id_unique hnd hy hjm (hyi.trans hji.symm)
          subst hyj
          unfold claimMap
          rw [if_pos ⟨rfl, ((isDue_iff _ _).mp hjd).1⟩]
          simp [stampClaim]
        rw [claimedCount_cons, if_pos hci, claimedCount_zero rest _ now i hnp]
      · rw [claimedCount_cons, if_neg hci]
        simp only [Nat.add_zero]
        exact ih _ (wf_claimOne _ _ _ _ _ hco hnd)

/-- Core liveness: with at least as many claim invocations as due pending
jobs, a due pending job is claimed exactly once. -/
theorem claimedCount_eq_one (ws : List String) (db : DB) (now : Nat) (j : Job)
    (hnd : wfJobs db) (hj : j ∈ db.jobs) (hdue : isDue now j = true)
    (hlen : (db.jobs.filter (isDue now)).length ≤ ws.length) :
    claimedCount (runClaims db ws now).1 j.id = 1 := by
  induction ws generalizing db with
  | nil =>
    exfalso
    have hmf : j ∈ db.jobs.filter (isDue now) := List.mem_filter.mpr ⟨hj, hdue⟩
    have hpos : 0 < (db.jobs.filter (isDue now)).length :=
      List.length_pos.mpr (List.ne_nil_of_mem hmf)
    simp only [List.length_nil] at hlen
    omega
  | cons w rest ih =>
    obtain ⟨j0, hs0⟩ := selectJob_of_due db.jobs now j hj hdue
    have hco : claimOne db w now =
        (some (stampClaim w now j0),
         { db with jobs := db.jobs.map (claimMap j0 w now) }) := by
      unfold claimOne
      rw [hs0]
    obtain ⟨hm0, hd0, -⟩ := selectJob_some _ _ _ hs0
    simp only [runClaims]
    rw [hco, claimedCount_cons]
    by_cases hji : j0.id = j.id
    · have hci : claimsOf j.id (some (stampClaim w now j0)) = true := by
        simp [claimsOf, stampClaim]
        exact hji
      have hnp : ∀ x ∈ (db.jobs.map (claimMap j0 w now)),
          x.id = j.id → x.state ≠ JState.pending := by
        intro x hx hxi
        obtain ⟨y, hy, rfl⟩ := List.mem_map.mp hx
        have hyi : y.id = j.id := by rw [← claimMap_id j0 w now y]; exact hxi
        have hyj : y = j0 := id_unique hnd hy hm0 (hyi.trans hji.symm)
        subst hyj
        unfold claimMap
        rw [if_pos ⟨rfl, ((isDue_iff _ _).mp hd0).1⟩]
        simp [stampClaim]
      rw [if_pos hci, claimedCount_zero rest _ now j.id hnp]
    · have hci : claimsOf j.id (some (stampClaim w now j0)) = false := by
        simp [claimsOf, stampClaim]
        exact hji
      rw [hci]
      simp only [Bool.false_eq_true, if_false, Nat.add_zero]
      have hwf2 : wfJobs { db with jobs := db.jobs.map (claimMap j0 w now) } :=
        wf_claimOne _ w now _ _ hco hnd
      have hcmj : claimMap j0 w now j = j :=
        claimMap_eq_self _ _ _ _ (Or.inl (fun he => hji he.symm))
      have hjmem2 : j ∈ db.jobs.map (claimMap j0 w now) :=
        hcmj ▸ List.mem_map_of_mem _ hj
      have hcount := due_count_claim db w now j0 hnd hm0 hd0
      simp only [List.length_cons] at hlen
      refine ih _ hwf2 hjmem2 ?_
      show ((db.jobs.map (claimMap j0 w now)).filter (isDue now)).length ≤ rest.length
      omega

end Helpers

/-- C1: for a pending, due job, among any number of claim invocations by
workers — concurrency modelled as an arbitrary serialization of the atomic
claim transactions, which is what the SQLite transactional guarantees provide —
the job is claimed at most once in every case, and exactly once as soon as at
least as many invocations run as there are due pending jobs; moreover the
write is conditional on the row still being pending: a claim transaction never
writes a row that is not pending. -/
theorem claim_exclusivity (db : DB) (now : Nat) (j : Job)
    (hnd : wfJobs db) (hj : j ∈ db.jobs)
    (hp : j.state = JState.pending) (hdue : j.next_run_at ≤ now) :
    (∀ ws : List String, claimedCount (runClaims db ws now).1 j.id ≤ 1) ∧
    (∀ ws : List String,
      (db.jobs.filter (isDue now)).length ≤ ws.length →
      claimedCount (runClaims db ws now).1 j.id = 1) ∧
    (∀ w r db2, claimOne db w now = (r, db2) →
      ∀ x ∈ db.jobs, x.state ≠ JState.pending → x ∈ db2.jobs) := by
  refine ⟨fun ws => claimedCount_le_one ws db now j.id hnd,
          fun ws hlen => claimedCount_eq_one ws db now j hnd hj
            ((isDue_iff now j).mpr ⟨hp, hdue⟩) hlen, ?_⟩
  intro w r db2 h x hx hxs
  cases r with
  | none =>
    obtain ⟨rfl, -⟩ := claimOne_none db w now db2 h
    exact hx
  | some rj =>
    obtain ⟨j0, -, -, hjobs, -, -⟩ := claimOne_some _ _ _ _ _ h
    rw [hjobs]
    exact claimMap_eq_self j0 w now x (Or.inr hxs) ▸ List.mem_map_of_mem _ hx

theorem claim_exclusivity_witness :
    claimedCount (runClaims exDB1 ["w1", "w2"] 0).1 "j1" = 1 :=
  (claim_exclusivity exDB1 0 (mkJob "j1" JState.pending 0 3 0 0)
    (by decide) (by decide) (by decide) (by decide)).2.1 ["w1", "w2"] (by decide)

/-- C2: a claim invocation selects among due pending jobs (state pending,
next_run_at at or before now) the one with the least created_at, atomically
stamps it processing together with worker_id and updated_at, and returns
exactly that record; when no pending job is due it returns none and the store
is unchanged. -/
theorem claim_selection (db : DB) (w : String) (now : Nat) :
    (∀ r db2, claimOne db w now = (some r, db2) →
      ∃ j, j ∈ db.jobs ∧ j.state = JState.pending ∧ j.next_run_at ≤ now ∧
        (∀ x ∈ db.jobs, x.state = JState.pending → x.next_run_at ≤ now →
          j.created_at ≤ x.created_at) ∧
        r = { j with state := JState.processing, worker_id := some w,
                     updated_at := now } ∧
        r ∈ db2.jobs ∧ (∀ x ∈ db.jobs, x.id ≠ j.id → x ∈ db2.jobs) ∧
        db2.dlq = db.dlq ∧ db2.config = db.config) ∧
    ((∀ x ∈ db.jobs, x.state = JState.pending → ¬ x.next_run_at ≤ now) →
      claimOne db w now = (none, db)) := by
  constructor
  · intro r db2 h
    obtain ⟨j, hs, hr, hjobs, hdlq, hcfg⟩ := claimOne_some _ _ _ _ _ h
    obtain ⟨hjm, hjd, hmin⟩ := selectJob_some _ _ _ hs
    obtain ⟨hjp, hjn⟩ := (isDue_iff now j).mp hjd
    refine ⟨j, hjm, hjp, hjn, ?_, hr, ?_, ?_, hdlq, hcfg⟩
    · intro x hx h1 h2
      exact hmin x hx ((isDue_iff now x).mpr ⟨h1, h2⟩)
    · rw [hjobs, hr]
      have hcm : claimMap j w now j = stampClaim w now j := by
        unfold claimMap
        rw [if_pos ⟨rfl, hjp⟩]
      exact hcm ▸ List.mem_map_of_mem _ hjm
    · intro x hx hne
      rw [hjobs]
      exact claimMap_eq_self j w now x (Or.inl hne) ▸ List.mem_map_of_mem _ hx
  · intro hnone
    unfold claimOne
    cases hs : selectJob db.jobs now with
    | none => rfl
    | some j =>
      obtain ⟨hjm, hjd, -⟩ := selectJob_some _ _ _ hs
      obtain ⟨h1, h2⟩ := (isDue_iff now j).mp hjd
      exact absurd h2 (hnone j hjm h1)

theorem claim_selection_witness :
    (claimOne exDB1 "w1" 0).2.dlq = exDB1.dlq := by
  have h := (claim_selection exDB1 "w1" 0).1
    (stampClaim "w1" 0 (mkJob "j1" JState.pending 0 3 0 0))
    (claimOne exDB1 "w1" 0).2 (by decide)
  obtain ⟨j, -, -, -, -, -, -, -, hdlq, -⟩ := h
  exact hdlq

/-- C3: when a claimed job fails and its incremented attempts count k is still
below max_retries, the job row returns to pending with attempts = k,
last_error set to the failure text, and next_run_at = now + base to the power
k (hence at least now + base to the power k), where base is read from the
config table at this decision; other rows and the dlq are untouched. -/
theorem retry_backoff (db : DB) (j : Job) (output : String) (now : Nat)
    (hnd : wfJobs db) (hj : j ∈ db.jobs)
    (hlt : j.attempts + 1 < j.max_retries) :
    (∀ x ∈ (recordFailure db j output now).jobs, x.id = j.id →
      x.state = JState.pending ∧ x.attempts = j.attempts + 1 ∧
      x.last_error = some output ∧
      x.next_run_at =
        now + (get_config db.config "backoff_base" 2) ^ (j.attempts + 1) ∧
      now + (get_config db.config "backoff_base" 2) ^ (j.attempts + 1) ≤
        x.next_run_at) ∧
    (∃ x ∈ (recordFailure db j output now).jobs, x.id = j.id) ∧
    (∀ x ∈ db.jobs, x.id ≠ j.id → x ∈ (recordFailure db j output now).jobs) ∧
    (recordFailure db j output now).dlq = db.dlq := by
  unfold recordFailure
  rw [if_pos hlt]
  refine ⟨?_, ?_, ?_, rfl⟩
  · intro x hx hxi
    have hx2 := upd_eq_of_id db.jobs hnd j hj x hx hxi
    subst hx2
    exact ⟨rfl, rfl, rfl, rfl, Nat.le_refl _⟩
  · exact ⟨_, upd_mem_self db.jobs j hj, rfl⟩
  · intro x hx hne
    exact upd_mem_other db.jobs j x hx hne

theorem retry_backoff_witness :
    (recordFailure exDB2 (mkJob "j1" JState.processing 0 3 0 0) "err" 100).dlq =
      exDB2.dlq :=
  (retry_backoff exDB2 (mkJob "j1" JState.processing 0 3 0 0) "err" 100
    (by decide) (by decide) (by decide)).2.2.2

/-- C10: recording a successful execution changes only the state of the job (to
completed), its updated_at, and its last_error (cleared); attempts,
max_retries, command, created_at, next_run_at and worker_id are unchanged — in
particular success does not increment attempts — and every other row, the dlq
and the config are untouched. -/
theorem success_frame (db : DB) (j : Job) (now : Nat)
    (hnd : wfJobs db) (hj : j ∈ db.jobs) :
    ({ j with state := JState.completed, updated_at := now, last_error := none }
        ∈ (recordSuccess db j now).jobs) ∧
    (∀ x ∈ (recordSuccess db j now).jobs, x.id = j.id →
      x.state = JState.completed ∧ x.attempts = j.attempts ∧
      x.max_retries = j.max_retries ∧ x.command = j.command ∧
      x.created_at = j.created_at ∧ x.next_run_at = j.next_run_at ∧
      x.worker_id = j.worker_id ∧ x.last_error = none ∧ x.updated_at = now) ∧
    (∀ x ∈ db.jobs, x.id ≠ j.id → x ∈ (recordSuccess db j now).jobs) ∧
    (recordSuccess db j now).dlq = db.dlq ∧
    (recordSuccess db j now).config = db.config := by
  unfold recordSuccess
  refine ⟨?_, ?_, ?_, rfl, rfl⟩
  · exact upd_mem_self db.jobs j hj
  · intro x hx hxi
    have hx2 := upd_eq_of_id db.jobs hnd j hj x hx hxi
    subst hx2
    exact ⟨rfl, rfl, rfl, rfl, rfl, rfl, rfl, rfl, rfl⟩
  · intro x hx hne
    exact upd_mem_other db.jobs j x hx hne

theorem success_frame_witness :
    ({ mkJob "j1" JState.processing 0 3 0 0 with
        state := JState.completed, updated_at := 42, last_error := none }
      ∈ (recordSuccess exDB2 (mkJob "j1" JState.processing 0 3 0 0) 42).jobs) :=
  (success_frame exDB2 (mkJob "j1" JState.processing 0 3 0 0) 42
    (by decide) (by decide)).1

/-- Across every operation of the system, a job row observed in state dead was
either already dead before the operation, or the operation is the
failure-outcome transaction for that row and its retries are exhausted. -/
theorem dead_only_from_failure (db0 : DB) (op : Op) :
    ∀ x ∈ (applyOp db0 op).jobs, x.state = JState.dead →
      (∃ y ∈ db0.jobs, y.id = x.id ∧ y.state = JState.dead) ∨
      (∃ jc out t, op = Op.failure jc out t ∧ x.id = jc.id ∧
        x.attempts = jc.attempts + 1 ∧ jc.max_retries ≤ x.attempts) := by
  intro x hx hdead
  cases op with
  | enq p now =>
    left
    simp only [applyOp] at hx
    obtain ⟨pid, pcmd, pmr, pra⟩ := p
    cases pid with
    | none =>
      simp only [enqueue_job] at hx
      exact ⟨x, hx, rfl, hdead⟩
    | some i =>
      cases pcmd with
      | none =>
        simp only [enqueue_job] at hx
        exact ⟨x, hx, rfl, hdead⟩
      | some c =>
        simp only [enqueue_job] at hx
        split at hx
        · exact ⟨x, hx, rfl, hdead⟩
        · rcases List.mem_append.mp hx with hy | hy
          · exact ⟨x, hy, rfl, hdead⟩
          · rw [List.mem_singleton.mp hy] at hdead
            simp at hdead
  | claim w now =>
    left
    simp only [applyOp] at hx
    cases hr : (claimOne db0 w now).1 with
    | none =>
      have hco : claimOne db0 w now = (none, (claimOne db0 w now).2) := by rw [← hr]
      obtain ⟨heq, -⟩ := claimOne_none _ _ _ _ hco
      rw [heq] at hx
      exact ⟨x, hx, rfl, hdead⟩
    | some rj =>
      have hco : claimOne db0 w now = (some rj, (claimOne db0 w now).2) := by rw [← hr]
      obtain ⟨j0, -, -, hjobs, -, -⟩ := claimOne_some _ _ _ _ _ hco
      rw [hjobs] at hx
      obtain ⟨y, hy, rfl⟩ := List.mem_map.mp hx
      by_cases hc : y.id = j0.id ∧ y.state = JState.pending
      · have hcm : claimMap j0 w now y = stampClaim w now y := by
          unfold claimMap
          rw [if_pos hc]
        rw [hcm] at hdead
        simp [stampClaim] at hdead
      · have hcm : claimMap j0 w now y = y := claimMap_eq_self _ _ _ _ (by tauto)
        rw [hcm] at hdead ⊢
        exact ⟨y, hy, rfl, hdead⟩
  | success j now =>
    left
    simp only [applyOp] at hx
    unfold recordSuccess at hx
    obtain ⟨y, hy, rfl⟩ := List.mem_map.mp hx
    by_cases hc : y.id = j.id
    · simp only [if_pos hc] at hdead
      simp at hdead
    · simp only [if_neg hc] at hdead ⊢
      exact ⟨y, hy, rfl, hdead⟩
  | failure jc out t =>
    simp only [applyOp] at hx
    unfold recordFailure at hx
    split at hx
    · left
      obtain ⟨y, hy, rfl⟩ := List.mem_map.mp hx
      by_cases hc : y.id = jc.id
      · simp only [if_pos hc] at hdead
        simp at hdead
      · simp only [if_neg hc] at hdead ⊢
        exact ⟨y, hy, rfl, hdead⟩
    · next hcond =>
      obtain ⟨y, hy, rfl⟩ := List.mem_map.mp hx
      by_cases hc : y.id = jc.id
      · right
        refine ⟨jc, out, t, rfl, ?_, ?_, ?_⟩
        · simp only [if_pos hc]
          exact hc
        · simp only [if_pos hc]
        · simp only [if_pos hc]
          exact Nat.not_lt.mp hcond
      · left
        simp only [if_neg hc] at hdead ⊢
        exact ⟨y, hy, rfl, hdead⟩
  | replay i now =>
    left
    simp only [applyOp] at hx
    cases hdr : dlq_retry db0 i now with
    | error e =>
      rw [hdr] at hx
      exact ⟨x, hx, rfl, hdead⟩
    | ok db2 =>
      rw [hdr] at hx
      unfold dlq_retry at hdr
      cases hf : db0.dlq.find? (fun r => decide (r.id = i)) with
      | none =>
        rw [hf] at hdr
        cases hdr
      | some r =>
        rw [hf] at hdr
        have hdb2 := Except.ok.inj hdr
        rw [← hdb2] at hx
        have hx2 : x ∈ upsertJob db0.jobs (replayJob r now) := hx
        unfold upsertJob at hx2
        split at hx2
        · obtain ⟨y, hy, rfl⟩ := List.mem_map.mp hx2
          by_cases hc : y.id = (replayJob r now).id
          · simp only [if_pos hc] at hdead
            simp [replayJob] at hdead
          · simp only [if_neg hc] at hdead ⊢
            exact ⟨y, hy, rfl, hdead⟩
        · rcases List.mem_append.mp hx2 with hy | hy
          · exact ⟨x, hy, rfl, hdead⟩
          · rw [List.mem_singleton.mp hy] at hdead
            simp [replayJob] at hdead
  | setcfg k v =>
    left
    exact ⟨x, hx, rfl, hdead⟩

/-- C4: when a claimed job fails and its incremented attempts count has
reached max_retries, the same transaction both marks the job row dead (with
the final attempts count and error text) and upserts the dead-letter record
carrying the same id, command, attempts, max_retries and error text; other
rows are untouched; and across every operation of the system a job becomes
dead only through this exhausted-retries failure transition. -/
theorem dead_letter_exactness (db : DB) (j : Job) (output : String) (now : Nat)
    (hnd : wfJobs db) (hj : j ∈ db.jobs)
    (hge : j.max_retries ≤ j.attempts + 1) :
    (∀ x ∈ (recordFailure db j output now).jobs, x.id = j.id →
      x.state = JState.dead ∧ x.attempts = j.attempts + 1 ∧
      x.last_error = some output ∧ j.max_retries ≤ x.attempts) ∧
    (∃ x ∈ (recordFailure db j output now).jobs, x.id = j.id) ∧
    (deadRecord j output now ∈ (recordFailure db j output now).dlq) ∧
    ((deadRecord j output now).id = j.id ∧
      (deadRecord j output now).command = j.command ∧
      (deadRecord j output now).attempts = j.attempts + 1 ∧
      (deadRecord j output now).max_retries = j.max_retries ∧
      (deadRecord j output now).last_error = some output) ∧
    (∀ x ∈ db.jobs, x.id ≠ j.id → x ∈ (recordFailure db j output now).jobs) ∧
    (∀ db0 op, ∀ x ∈ (applyOp db0 op).jobs, x.state = JState.dead →
      (∃ y ∈ db0.jobs, y.id = x.id ∧ y.state = JState.dead) ∨
      (∃ jc out t, op = Op.failure jc out t ∧ x.id = jc.id ∧
        x.attempts = jc.attempts + 1 ∧ jc.max_retries ≤ x.attempts)) := by
  have hnlt : ¬ (j.attempts + 1 < j.max_retries) := Nat.not_lt.mpr hge
  unfold recordFailure
  rw [if_neg hnlt]
  refine ⟨?_, ?_, ?_, ⟨rfl, rfl, rfl, rfl, rfl⟩, ?_, dead_only_from_failure⟩
  · intro x hx hxi
    have hx2 := upd_eq_of_id db.jobs hnd j hj x hx hxi
    subst hx2
    exact ⟨rfl, rfl, rfl, hge⟩
  · exact ⟨_, upd_mem_self db.jobs j hj, rfl⟩
  · exact mem_upsertDLQ db.dlq _
  · intro x hx hne
    exact upd_mem_other db.jobs j x hx hne

theorem dead_letter_exactness_witness :
    deadRecord (mkJob "j1" JState.processing 2 3 0 0) "boom" 9 ∈
      (recordFailure exDB3 (mkJob "j1" JState.processing 2 3 0 0) "boom" 9).dlq :=
  (dead_letter_exactness exDB3 (mkJob "j1" JState.processing 2 3 0 0) "boom" 9
    (by decide) (by decide) (by decide)).2.2.1

/-- C5: replaying an id absent from the dlq fails with the not-found report
and mutates nothing; otherwise one transaction removes the dead-letter record
and inserts or overwrites the job row with the same id and command, state
pending, attempts 0, next_run_at = now, worker_id and last_error null, and
max_retries preserved from the dead record. -/
theorem replay_resets_budget (db : DB) (i : String) (now : Nat) :
    (db.dlq.find? (fun r => decide (r.id = i)) = none →
      dlq_retry db i now = Except.error "not found") ∧
    (∀ r, db.dlq.find? (fun r0 => decide (r0.id = i)) = some r →
      r.id = i ∧
      ∃ db2, dlq_retry db i now = Except.ok db2 ∧
        replayJob r now ∈ db2.jobs ∧
        (replayJob r now).id = r.id ∧ (replayJob r now).command = r.command ∧
        (replayJob r now).state = JState.pending ∧
        (replayJob r now).attempts = 0 ∧
        (replayJob r now).max_retries = r.max_retries ∧
        (replayJob r now).next_run_at = now ∧
        (replayJob r now).worker_id = none ∧
        (replayJob r now).last_error = none ∧
        (∀ x ∈ db2.jobs, x.id = r.id → x = replayJob r now) ∧
        (∀ x ∈ db2.dlq, x.id ≠ i) ∧
        (∀ x ∈ db.dlq, x.id ≠ i → x ∈ db2.dlq) ∧
        (∀ x ∈ db.jobs, x.id ≠ r.id → x ∈ db2.jobs) ∧
        db2.config = db.config) := by
  constructor
  · intro h
    unfold dlq_retry
    rw [h]
  · intro r h
    have hp := List.find?_some h
    refine ⟨of_decide_eq_true hp, ?_⟩
    refine ⟨{ db with
              jobs := upsertJob db.jobs (replayJob r now)
              dlq := db.dlq.filter (fun x => decide (x.id ≠ i)) },
            ?_, mem_upsertJob db.jobs (replayJob r now),
            rfl, rfl, rfl, rfl, rfl, rfl, rfl, rfl, ?_, ?_, ?_, ?_, rfl⟩
    · unfold dlq_retry
      rw [h]
    · intro x hx hxi
      exact upsertJob_eq_of_id db.jobs (replayJob r now) x hx hxi
    · intro x hx
      have hm := List.mem_filter.mp hx
      simpa using hm.2
    · intro x hx hne
      exact List.mem_filter.mpr ⟨hx, by simpa using hne⟩
    · intro x hx hne
      exact mem_upsertJob_other db.jobs (replayJob r now) x hx hne

theorem replay_resets_budget_witness : (replayJob exRec 50).attempts = 0 := by
  have h := ((replay_resets_budget exDB4 "j1" 50).2 exRec (by decide)).2
  obtain ⟨db2, -, -, -, -, -, hatt, -⟩ := h
  exact hatt

/-- C6: enqueueing a payload whose id already exists leaves every record of
the store completely unchanged, reports the duplicate, and that report is not
the fatal validation outcome. -/
theorem duplicate_enqueue (db : DB) (p : Payload) (now : Nat)
    (i c : String) (x : Job)
    (hid : p.id = some i) (hcmd : p.command = some c)
    (hx : x ∈ db.jobs) (hxi : x.id = i) :
    enqueue_job db p now = (EnqResult.duplicateJob, db) ∧
    EnqResult.duplicateJob ≠ EnqResult.fatalValidation := by
  refine ⟨?_, by decide⟩
  obtain ⟨pid, pcmd, pmr, pra⟩ := p
  simp only [] at hid hcmd
  subst hid
  subst hcmd
  simp only [enqueue_job]
  have hany : (db.jobs.any fun y => decide (y.id = i)) = true :=
    List.any_eq_true.mpr ⟨x, hx, by simp [hxi]⟩
  rw [if_pos hany]

theorem duplicate_enqueue_witness :
    enqueue_job exDB1 exPayload 5 = (EnqResult.duplicateJob, exDB1) :=
  (duplicate_enqueue exDB1 exPayload 5 "j1" "cmd"
    (mkJob "j1" JState.pending 0 3 0 0) rfl rfl (by decide) (by decide)).1

/-- C7 (the claim fails on the code): with the config default retry limit set
to 5, enqueueing a payload that omits max_retries stores max_retries = 3 — the
hardcoded literal default of enqueue_job (line 107) — not the configured value:
enqueue_job never reads the max_retries config key. -/
theorem enqueue_default_ignores_config :
    get_config exDB7.config "max_retries" 3 = 5 ∧
    ∃ x ∈ (enqueue_job exDB7 exPayload 10).2.jobs,
      x.id = "j1" ∧ x.max_retries = 3 ∧ ¬ x.max_retries = 5 := by decide

/-- C8: a job enqueued with run_at = T is stored pending with next_run_at = T;
a claim invocation only ever returns a job whose next_run_at is at or before
its current time, so this job is never returned while now < T; and once
T ≤ now the row, while still pending, is due — in particular when it is the
only due pending row a claim returns exactly it, marked processing for the
claiming worker. -/
theorem schedule_respected (db : DB) (p : Payload) (i c : String)
    (T now0 : Nat) (db2 : DB)
    (hid : p.id = some i) (hc : p.command = some c) (hrun : p.run_at = some T)
    (hfresh : ∀ x ∈ db.jobs, x.id ≠ i)
    (hdb2 : (enqueue_job db p now0).2 = db2) :
    (∃ x ∈ db2.jobs, x.id = i ∧ x.state = JState.pending ∧ x.next_run_at = T) ∧
    (∀ x ∈ db2.jobs, x.id = i → x.state = JState.pending ∧ x.next_run_at = T) ∧
    (∀ now w r db3, now < T → claimOne db2 w now = (some r, db3) → r.id ≠ i) ∧
    (∀ dbx : DB, ∀ w now r db3, claimOne dbx w now = (some r, db3) →
      r.next_run_at ≤ now) ∧
    (∀ now w, T ≤ now → (∀ y ∈ db2.jobs, isDue now y = true → y.id = i) →
      ∃ r db3, claimOne db2 w now = (some r, db3) ∧ r.id = i ∧
        r.state = JState.processing ∧ r.worker_id = some w) := by
  obtain ⟨pid, pcmd, pmr, pra⟩ := p
  simp only [] at hid hc hrun
  subst hid
  subst hc
  subst hrun
  simp only [enqueue_job] at hdb2
  have hany : (db.jobs.any fun y => decide (y.id = i)) = false := by
    by_contra hcon
    rw [Bool.not_eq_false, List.any_eq_true] at hcon
    obtain ⟨y, hy, hye⟩ := hcon
    exact hfresh y hy (of_decide_eq_true hye)
  rw [hany] at hdb2
  simp only [Bool.false_eq_true, if_false, Option.getD_some] at hdb2
  have hjobs2 : db2.jobs = db.jobs ++ [enqJob i c (pmr.getD 3) now0 T] := by
    rw [← hdb2]
    rfl
  have hmemR : enqJob i c (pmr.getD 3) now0 T ∈ db2.jobs := by
    rw [hjobs2]
    simp
  have hchar : ∀ x ∈ db2.jobs, x.id = i →
      x.state = JState.pending ∧ x.next_run_at = T := by
    intro x hx hxi
    rw [hjobs2] at hx
    rcases List.mem_append.mp hx with hy | hy
    · exact absurd hxi (hfresh x hy)
    · rw [List.mem_singleton.mp hy]
      exact ⟨rfl, rfl⟩
  refine ⟨⟨_, hmemR, rfl, rfl, rfl⟩, hchar, ?_, ?_, ?_⟩
  · intro now w r db3 hlt hcl hri
    obtain ⟨j0, hs, hr, -, -, -⟩ := claimOne_some _ _ _ _ _ hcl
    obtain ⟨hj0m, hj0d, -⟩ := selectJob_some _ _ _ hs
    have hj0i : j0.id = i := by
      rw [hr] at hri
      exact hri
    have hT := (hchar j0 hj0m hj0i).2
    have hle := ((isDue_iff _ _).mp hj0d).2
    omega
  · intro dbx w now r db3 hcl
    obtain ⟨j0, hs, hr, -, -, -⟩ := claimOne_some _ _ _ _ _ hcl
    obtain ⟨-, hj0d, -⟩ := selectJob_some _ _ _ hs
    have hle := ((isDue_iff _ _).mp hj0d).2
    rw [hr]
    exact hle
  · intro now w hTn huniq
    have hRdue : isDue now (enqJob i c (pmr.getD 3) now0 T) = true :=
      (isDue_iff _ _).mpr ⟨rfl, hTn⟩
    obtain ⟨j0, hs⟩ := selectJob_of_due db2.jobs now _ hmemR hRdue
    obtain ⟨hj0m, hj0d, -⟩ := selectJob_some _ _ _ hs
    have hceq : claimOne db2 w now =
        (some (stampClaim w now j0),
         { db2 with jobs := db2.jobs.map (claimMap j0 w now) }) := by
      unfold claimOne
      rw [hs]
    exact ⟨stampClaim w now j0, _, hceq, huniq j0 hj0m hj0d, rfl, rfl⟩

theorem schedule_respected_witness :
    (claimOne exDB8 "w1" 10).1.map Job.id = some "jf" := by
  obtain ⟨r, db3, heq, hri, -, -⟩ :=
    (schedule_respected exDBE exPayloadFuture "jf" "cmd" 10 0 exDB8
      rfl rfl rfl (by decide) (by decide)).2.2.2.2 10 "w1" (by decide) (by decide)
  rw [heq]
  simp [hri]

/-- C9 fails as stated on the code: replay is among the listed operations, and
replaying the dead job j1 (attempts = 3) of exDB4 yields a j1 row with
attempts = 0, a strict decrease. -/
theorem attempts_decrease_on_replay :
    (exDB4.jobs.find? (fun x => decide (x.id = "j1"))).map Job.attempts =
      some 3 ∧
    ((applyOp exDB4 (Op.replay "j1" 50)).jobs.find?
        (fun x => decide (x.id = "j1"))).map Job.attempts = some 0 ∧
    (0 : Nat) < 3 := by decide

/-- C9 amended: across enqueue, claim, success/failure recording and
dead-lettering — every operation except replay — the attempts field of a job row never
decreases and its next_run_at never decreases; replay alone resets attempts
to 0 (a decrease whenever the dead job had positive attempts) and reschedules
the job at the replay time. -/
theorem attempts_monotone_except_replay (db : DB) (op : Op)
    (hnd : wfJobs db) (hv : Op.valid db op) (hnr : op.isReplay = false) :
    ∀ x ∈ db.jobs, ∀ y ∈ (applyOp db op).jobs, y.id = x.id →
      x.attempts ≤ y.attempts ∧ x.next_run_at ≤ y.next_run_at := by
  intro x hx y hy hyx
  cases op with
  | enq p now =>
    simp only [applyOp] at hy
    obtain ⟨pid, pcmd, pmr, pra⟩ := p
    cases pid with
    | none =>
      simp only [enqueue_job] at hy
      have hxy := id_unique hnd hy hx hyx
      subst hxy
      exact ⟨Nat.le_refl _, Nat.le_refl _⟩
    | some i =>
      cases pcmd with
      | none =>
        simp only [enqueue_job] at hy
        have hxy := id_unique hnd hy hx hyx
        subst hxy
        exact ⟨Nat.le_refl _, Nat.le_refl _⟩
      | some c =>
        simp only [enqueue_job] at hy
        split at hy
        · have hxy := id_unique hnd hy hx hyx
          subst hxy
          exact ⟨Nat.le_refl _, Nat.le_refl _⟩
        · next hcond =>
          rcases List.mem_append.mp hy with hy2 | hy2
          · have hxy := id_unique hnd hy2 hx hyx
            subst hxy
            exact ⟨Nat.le_refl _, Nat.le_refl _⟩
          · exfalso
            rw [List.mem_singleton.mp hy2] at hyx
            apply hcond
            exact List.any_eq_true.mpr ⟨x, hx, decide_eq_true hyx.symm⟩
  | claim w now =>
    simp only [applyOp] at hy
    cases hr : (claimOne db w now).1 with
    | none =>
      have hco : claimOne db w now = (none, (claimOne db w now).2) := by rw [← hr]
      obtain ⟨heq, -⟩ := claimOne_none _ _ _ _ hco
      rw [heq] at hy
      have hxy := id_unique hnd hy hx hyx
      subst hxy
      exact ⟨Nat.le_refl _, Nat.le_refl _⟩
    | some rj =>
      have hco : claimOne db w now = (some rj, (claimOne db w now).2) := by rw [← hr]
      obtain ⟨j0, -, -, hjobs, -, -⟩ := claimOne_some _ _ _ _ _ hco
      rw [hjobs] at hy
      obtain ⟨z, hz, rfl⟩ := List.mem_map.mp hy
      have hzx : z = x := id_unique hnd hz hx (by rw [← claimMap_id j0 w now z]; exact hyx)
      subst hzx
      by_cases hc : z.id = j0.id ∧ z.state = JState.pending
      · have hcm : claimMap j0 w now z = stampClaim w now z := by
          unfold claimMap
          rw [if_pos hc]
        rw [hcm]
        exact ⟨Nat.le_refl _, Nat.le_refl _⟩
      · rw [claimMap_eq_self _ _ _ _ (by tauto)]
        exact ⟨Nat.le_refl _, Nat.le_refl _⟩
  | success j now =>
    simp only [applyOp] at hy
    unfold recordSuccess at hy
    obtain ⟨z, hz, rfl⟩ := List.mem_map.mp hy
    by_cases hc : z.id = j.id
    · simp only [if_pos hc] at hyx ⊢
      have hzx : z = x := id_unique hnd hz hx hyx
      subst hzx
      exact ⟨Nat.le_refl _, Nat.le_refl _⟩
    · simp only [if_neg hc] at hyx ⊢
      have hzx : z = x := id_unique hnd hz hx hyx
      subst hzx
      exact ⟨Nat.le_refl _, Nat.le_refl _⟩
  | failure jc out now =>
    obtain ⟨hjm, hjs, hjn⟩ := hv
    simp only [applyOp] at hy
    unfold recordFailure at hy
    split at hy
    · obtain ⟨z, hz, rfl⟩ := List.mem_map.mp hy
      by_cases hc : z.id = jc.id
      · simp only [if_pos hc] at hyx ⊢
        have hzx : z = x := id_unique hnd hz hx hyx
        subst hzx
        have hzj : z = jc := id_unique hnd hz hjm hc
        rw [hzj]
        exact ⟨Nat.le_succ _, le_trans hjn (Nat.le_add_right _ _)⟩
      · simp only [if_neg hc] at hyx ⊢
        have hzx : z = x := id_unique hnd hz hx hyx
        subst hzx
        exact ⟨Nat.le_refl _, Nat.le_refl _⟩
    · obtain ⟨z, hz, rfl⟩ := List.mem_map.mp hy
      by_cases hc : z.id = jc.id
      · simp only [if_pos hc] at hyx ⊢
        have hzx : z = x := id_unique hnd hz hx hyx
        subst hzx
        have hzj : z = jc := id_unique hnd hz hjm hc
        rw [hzj]
        exact ⟨Nat.le_succ _, Nat.le_refl _⟩
      · simp only [if_neg hc] at hyx ⊢
        have hzx : z = x := id_unique hnd hz hx hyx
        subst hzx
        exact ⟨Nat.le_refl _, Nat.le_refl _⟩
  | replay i now =>
    simp [Op.isReplay] at hnr
  | setcfg k v =>
    simp only [applyOp] at hy
    have hxy := id_unique hnd hy hx hyx
    subst hxy
    exact ⟨Nat.le_refl _, Nat.le_refl _⟩

theorem attempts_monotone_except_replay_witness :
    (mkJob "j1" JState.processing 0 3 0 0).attempts ≤ exJobC9.attempts ∧
    (mkJob "j1" JState.processing 0 3 0 0).next_run_at ≤ exJobC9.next_run_at :=
  attempts_monotone_except_replay exDB2
    (Op.failure (mkJob "j1" JState.processing 0 3 0 0) "err" 5)
    (by decide) (by refine ⟨by decide, by decide, by decide⟩) (by decide)
    (mkJob "j1" JState.processing 0 3 0 0) (by decide)
    exJobC9 (by decide) (by decide)

end QueueCTL
